import Mathlib

/-
Verification of the MSDScript expression-language core.

Embedded from the repository sources:
  * src/Expr.cpp  — the AST classes (NumExpr, BoolExpr, VarExpr, AddExpr,
    MultExpr, EqExpr, IfExpr, LetExpr, FunExpr, CallExpr) with their
    equals / interp / print / pretty_print_at methods;
  * src/parse.cpp — the recursive-descent parser (parse, parse_str,
    parse_expr, parse_addend, parse_multicand, parse_num, parse_var,
    parse_let, consume, consume_word, skip_whitespace).

The runtime value and environment classes (Val.cpp, env.cpp and their
headers) are not among the provided sources; they are modelled from the
specification where indicated.  C++ machine integers are modelled as
unbounded Int (no claim exercises overflow).  The C++ input stream is
modelled as a List Char, ostream output as an accumulated List Char, and
exceptions as an Except error monad.  The two recursions that are not
structural in C++ (the mutually recursive parser and the evaluator, which
can loop through closures) take an explicit fuel argument; running out of
fuel is a distinct outcome, never identified with a source-level error.
-/

namespace MSD

/-- AST of MSDScript expressions, one constructor per Expr subclass of
src/Expr.cpp. -/
inductive Expr where
  | num : Int → Expr
  | boolE : Bool → Expr
  | var : String → Expr
  | add : Expr → Expr → Expr
  | mult : Expr → Expr → Expr
  | eq : Expr → Expr → Expr
  | ifE : Expr → Expr → Expr → Expr
  | letE : String → Expr → Expr → Expr
  | funE : String → Expr → Expr
  | call : Expr → Expr → Expr
deriving DecidableEq

/-- C character classification isdigit, over the code point. -/
def cIsDigit (c : Char) : Bool := 48 ≤ c.toNat && c.toNat ≤ 57

/-- C character classification isalpha (C locale), over the code point. -/
def cIsAlpha (c : Char) : Bool :=
  (65 ≤ c.toNat && c.toNat ≤ 90) || (97 ≤ c.toNat && c.toNat ≤ 122)

/-- C character classification isspace: space, tab, newline, vertical tab,
form feed, carriage return. -/
def cIsSpace (c : Char) : Bool :=
  c.toNat = 32 || c.toNat = 9 || c.toNat = 10 ||
  c.toNat = 11 || c.toNat = 12 || c.toNat = 13

/-- The decimal digit character for a value below ten (as produced by
std::to_string). -/
def digitChar : Nat → Char
  | 0 => '0' | 1 => '1' | 2 => '2' | 3 => '3' | 4 => '4'
  | 5 => '5' | 6 => '6' | 7 => '7' | 8 => '8' | _ => '9'

/-- Decimal rendering of a natural number, most significant digit first,
as produced by std::to_string on a non-negative int. -/
def natReprChars (n : Nat) : List Char :=
  if _h : n < 10 then [digitChar n]
  else natReprChars (n / 10) ++ [digitChar (n % 10)]
decreasing_by exact Nat.div_lt_self (by omega) (by omega)

/-- Decimal rendering of an int as produced by std::to_string: an optional
leading minus sign followed by the digits of the absolute value. -/
def intRepr (n : Int) : List Char :=
  if n < 0 then '-' :: natReprChars n.natAbs else natReprChars n.toNat

/-- Canonical printing, from the print methods of src/Expr.cpp.  The
ostream is modelled as the emitted character list.  Note the operand swap
in the EqExpr case (EqExpr::print emits rhs, then "==", then lhs) and the
absence of spaces around the keywords in the IfExpr case, both faithful to
the source. -/
def printChars : Expr → List Char
  | .num n => intRepr n
  | .boolE b => if b then '_' :: 't' :: 'r' :: 'u' :: 'e' :: []
                else '_' :: 'f' :: 'a' :: 'l' :: 's' :: 'e' :: []
  | .var x => x.toList
  | .add l r => '(' :: (printChars l ++ '+' :: (printChars r ++ [')']))
  | .mult l r => '(' :: (printChars l ++ '*' :: (printChars r ++ [')']))
  | .eq l r => '(' :: (printChars r ++ '=' :: '=' :: (printChars l ++ [')']))
  | .ifE c t e =>
      '(' :: '_' :: 'i' :: 'f' :: (printChars c ++
        '_' :: 't' :: 'h' :: 'e' :: 'n' :: (printChars t ++
          '_' :: 'e' :: 'l' :: 's' :: 'e' :: (printChars e ++ [')'])))
  | .letE x r b =>
      '(' :: '_' :: 'l' :: 'e' :: 't' :: ' ' :: (x.toList ++
        '=' :: (printChars r ++
          ' ' :: '_' :: 'i' :: 'n' :: ' ' :: (printChars b ++ [')'])))
  | .funE p b =>
      '_' :: 'f' :: 'u' :: 'n' :: ' ' :: '(' :: (p.toList ++
        ')' :: ' ' :: printChars b)
  | .call f a =>
      '(' :: (printChars f ++ ')' :: ' ' :: '(' :: (printChars a ++ [')']))

/-- Expr::to_string from src/Expr.cpp: print into a string stream. -/
def Expr.to_string (e : Expr) : String := String.mk (printChars e)

/-- Structural equality, from the equals methods of src/Expr.cpp.  A
failed downcast (different variants) yields false; EqExpr::equals compares
the rhs fields first, faithful to the source. -/
def equals : Expr → Expr → Bool
  | .num a, .num b => a == b
  | .boolE a, .boolE b => a == b
  | .var a, .var b => a == b
  | .add l r, .add l2 r2 => equals l l2 && equals r r2
  | .mult l r, .mult l2 r2 => equals l l2 && equals r r2
  | .eq l r, .eq l2 r2 => equals r r2 && equals l l2
  | .ifE c t e, .ifE c2 t2 e2 => equals c c2 && equals t t2 && equals e e2
  | .letE x r b, .letE x2 r2 b2 => x == x2 && equals r r2 && equals b b2
  | .funE p b, .funE p2 b2 => p == p2 && equals b b2
  | .call f a, .call f2 a2 => equals f f2 && equals a a2
  | _, _ => false

/-! ## Values and environments

Val.cpp and env.cpp are not among the provided sources; the following
definitions are modelled from the specification (sections 3 and 4.3). -/

/-- Modelled from the spec: runtime values NumVal, BoolVal and FunVal
(Val.hpp / Val.cpp are missing from the sources).  A FunVal carries the
parameter name, the body and the captured environment. -/
inductive Val where
  | numVal : Int → Val
  | boolVal : Bool → Val
  | funVal : String → Expr → List (String × Val) → Val

/-- Modelled from the spec: an environment is the chain Empty /
Extended(name, value, parent) of env.cpp, i.e. a list of bindings searched
innermost first. -/
abbrev Env := List (String × Val)

/-- Runtime error kinds of the evaluator (spec section 7), plus fuel
exhaustion, which is an artifact of the embedding only. -/
inductive RunErr where
  | unboundVariable : String → RunErr
  | typeError : RunErr
  | outOfFuel : RunErr
deriving DecidableEq

/-- Modelled from the spec: Env::lookup walks from the innermost extension
outward and returns the first matching binding; lookup on the empty
environment fails with an unbound-variable error. -/
def lookup : Env → String → Except RunErr Val
  | [], x => .error (.unboundVariable x)
  | (y, v) :: rest, x => if x = y then .ok v else lookup rest x

/-- Modelled from the spec: Val::add_to is defined only on two NumVals and
fails with a type error otherwise. -/
def add_to : Val → Val → Except RunErr Val
  | .numVal a, .numVal b => .ok (.numVal (a + b))
  | _, _ => .error .typeError

/-- Modelled from the spec: Val::mult_with is defined only on two NumVals
and fails with a type error otherwise. -/
def mult_with : Val → Val → Except RunErr Val
  | .numVal a, .numVal b => .ok (.numVal (a * b))
  | _, _ => .error .typeError

mutual
/-- Modelled from the spec: structural, variant-sensitive value equality.
The spec leaves the FunVal-to-FunVal rule open; it is modelled here as
fully structural (parameter, body, captured environment).  No claim
exercises that case. -/
def val_equals : Val → Val → Bool
  | .numVal a, .numVal b => a == b
  | .boolVal a, .boolVal b => a == b
  | .funVal p b env, .funVal p2 b2 env2 =>
      p == p2 && equals b b2 && env_equals env env2
  | _, _ => false

/-- Modelled from the spec: pointwise equality of captured environments. -/
def env_equals : Env → Env → Bool
  | [], [] => true
  | (x, v) :: r, (y, w) :: r2 => x == y && val_equals v w && env_equals r r2
  | _, _ => false
end

/-- The evaluator, from the interp methods of src/Expr.cpp with the value
and environment operations modelled from the spec.  The C++ sources
normalize a missing (null) environment to Env::empty, modelled here by
Env being a total type whose empty environment is the empty list.  Fuel is
consumed at every step; it is an artifact of the embedding (a C++
evaluation that loops through closures simply does not terminate). -/
def interp : Nat → Expr → Env → Except RunErr Val
  | 0, _, _ => .error .outOfFuel
  | fuel + 1, e, env =>
    match e with
    | .num n => .ok (.numVal n)
    | .boolE b => .ok (.boolVal b)
    | .var x => lookup env x
    | .add l r =>
        match interp fuel l env with
        | .error err => .error err
        | .ok a =>
          match interp fuel r env with
          | .error err => .error err
          | .ok b => add_to a b
    | .mult l r =>
        match interp fuel l env with
        | .error err => .error err
        | .ok a =>
          match interp fuel r env with
          | .error err => .error err
          | .ok b => mult_with a b
    | .eq l r =>
        match interp fuel r env with
        | .error err => .error err
        | .ok a =>
          match interp fuel l env with
          | .error err => .error err
          | .ok b => .ok (.boolVal (val_equals a b))
    | .ifE c t f =>
        match interp fuel c env with
        | .error err => .error err
        | .ok (.boolVal true) => interp fuel t env
        | .ok _ => interp fuel f env
    | .letE x r b =>
        match interp fuel r env with
        | .error err => .error err
        | .ok v => interp fuel b ((x, v) :: env)
    | .funE p b => .ok (.funVal p b env)
    | .call f a =>
        match interp fuel f env with
        | .error err => .error err
        | .ok fv =>
          match interp fuel a env with
          | .error err => .error err
          | .ok av =>
            match fv with
            | .funVal p body cenv => interp fuel body ((p, av) :: cenv)
            | _ => .error .typeError

/-! ## The parser, from src/parse.cpp

The istream is a List Char; peeking is inspecting the head, get/consume
removes it; end of file is the empty list.  runtime_error is an Except
error, one constructor per distinct message of the source. -/

/-- Parse error kinds, one per runtime_error message thrown in
src/parse.cpp, plus fuel exhaustion (an artifact of the embedding). -/
inductive PErr where
  | invalidInput : PErr
  | missingCloseParen : PErr
  | notANum : PErr
  | consumeMismatch : PErr
  | outOfFuel : PErr
deriving DecidableEq

/-- skip_whitespace from src/parse.cpp: consume characters while isspace
holds of the peeked character. -/
def skip_whitespace : List Char → List Char
  | [] => []
  | c :: cs => if cIsSpace c then skip_whitespace cs else c :: cs

/-- consume from src/parse.cpp: get one character and fail unless it is
the expected one (getting EOF also fails, as EOF differs from any
expected character). -/
def consume : List Char → Char → Except PErr (List Char)
  | [], _ => .error .consumeMismatch
  | c :: cs, expect => if c = expect then .ok cs else .error .consumeMismatch

/-- consume_word from src/parse.cpp: consume the characters of a keyword
one by one, failing on the first mismatch. -/
def consume_word : List Char → List Char → Except PErr (List Char)
  | s, [] => .ok s
  | [], _ :: _ => .error .consumeMismatch
  | d :: ds, c :: ws =>
      if d = c then consume_word ds ws else .error .consumeMismatch

/-- The digit-accumulation loop of parse_num: n = n*10 + (c - '0') while
the peeked character is a digit. -/
def parseNumLoop : Int → List Char → Int × List Char
  | n, [] => (n, [])
  | n, c :: cs =>
      if cIsDigit c then parseNumLoop (n * 10 + ((c.toNat : Int) - 48)) cs
      else (n, c :: cs)

/-- parse_num from src/parse.cpp: an optional leading minus must be
followed by a digit ("not a num" otherwise), then digits are accumulated
in base ten and the sign applied.  (On a stream that starts with no digit
and no minus the loop reads nothing and the result is Num(0), exactly as
in the source; parse_multicand only calls it on a minus or a digit.) -/
def parse_num (s : List Char) : Except PErr (Expr × List Char) :=
  match s with
  | [] =>
      match parseNumLoop 0 [] with
      | (n, s1) => .ok (.num n, s1)
  | c :: cs =>
      if c = '-' then
        match cs with
        | [] => .error .notANum
        | d :: ds =>
            if cIsDigit d then
              match parseNumLoop 0 (d :: ds) with
              | (n, s1) => .ok (.num (-n), s1)
            else .error .notANum
      else
        match parseNumLoop 0 (c :: cs) with
        | (n, s1) => .ok (.num n, s1)

/-- Reduction of an unbounded integer into the two's-complement value
range of a 32-bit C++ int, by explicit arithmetic modulo 2^32. -/
def int32wrap (n : Int) : Int :=
  (n + 2147483648) % 4294967296 - 2147483648

/-- The digit-accumulation loop of parse_num with the C++ `int n`
accumulator modelled faithfully as a two's-complement 32-bit integer:
each n*10 + (c - '0') step is reduced into int range.  (Signed overflow
is undefined behavior in ISO C++; wrap-around is the conventional
concretization.  While the value stays within int range this loop agrees
with the unbounded parseNumLoop above.) -/
def parseNumLoopInt : Int → List Char → Int × List Char
  | n, [] => (n, [])
  | n, c :: cs =>
      if cIsDigit c then
        parseNumLoopInt (int32wrap (n * 10 + ((c.toNat : Int) - 48))) cs
      else (n, c :: cs)

/-- parse_num from src/parse.cpp with the int accumulator modelled as a
wrapping 32-bit signed integer (see parseNumLoopInt); the final
n = n * -1 negation of the source is wrapped as well.  This is the
int-accurate model of the same source lines as parse_num above. -/
def parse_num_int32 (s : List Char) : Except PErr (Expr × List Char) :=
  match s with
  | [] =>
      match parseNumLoopInt 0 [] with
      | (n, s1) => .ok (.num n, s1)
  | c :: cs =>
      if c = '-' then
        match cs with
        | [] => .error .notANum
        | d :: ds =>
            if cIsDigit d then
              match parseNumLoopInt 0 (d :: ds) with
              | (n, s1) => .ok (.num (int32wrap (-n)), s1)
            else .error .notANum
      else
        match parseNumLoopInt 0 (c :: cs) with
        | (n, s1) => .ok (.num n, s1)

/-- The character-collection loop of parse_var: append characters while
the peeked character is alphabetic. -/
def varLoop : List Char → List Char × List Char
  | [] => ([], [])
  | c :: cs =>
      if cIsAlpha c then
        match varLoop cs with
        | (a, r) => (c :: a, r)
      else ([], c :: cs)

/-- parse_var from src/parse.cpp: a variable is the maximal run of
alphabetic characters at the head of the stream. -/
def parse_var (s : List Char) : Expr × List Char :=
  match varLoop s with
  | (a, r) => (.var (String.mk a), r)

mutual

/-- parse_expr from src/parse.cpp: an addend, optionally followed by '+'
and a right-recursively parsed expression. -/
def parse_expr : Nat → List Char → Except PErr (Expr × List Char)
  | 0, _ => .error .outOfFuel
  | fuel + 1, s =>
    match parse_addend fuel s with
    | .error err => .error err
    | .ok (e, s1) =>
      match skip_whitespace s1 with
      | [] => .ok (e, [])
      | c :: s2 =>
        if c = '+' then
          match parse_expr fuel s2 with
          | .error err => .error err
          | .ok (rhs, s3) => .ok (.add e rhs, s3)
        else .ok (e, c :: s2)

/-- parse_addend from src/parse.cpp: a multicand, optionally followed by
'*', whitespace, and a right-recursively parsed addend. -/
def parse_addend : Nat → List Char → Except PErr (Expr × List Char)
  | 0, _ => .error .outOfFuel
  | fuel + 1, s =>
    match parse_multicand fuel s with
    | .error err => .error err
    | .ok (e, s1) =>
      match skip_whitespace s1 with
      | [] => .ok (e, [])
      | c :: s2 =>
        if c = '*' then
          match parse_addend fuel (skip_whitespace s2) with
          | .error err => .error err
          | .ok (rhs, s3) => .ok (.mult e rhs, s3)
        else .ok (e, c :: s2)

/-- parse_multicand from src/parse.cpp: dispatch on the first
non-whitespace character — minus sign or digit to parse_num,
parenthesized expression, alphabetic to parse_var, underscore to
parse_let; anything else (including end of file) throws
"invalid input". -/
def parse_multicand : Nat → List Char → Except PErr (Expr × List Char)
  | 0, _ => .error .outOfFuel
  | fuel + 1, s =>
    match skip_whitespace s with
    | [] => .error .invalidInput
    | c :: cs =>
      if c = '-' ∨ cIsDigit c then parse_num (c :: cs)
      else if c = '(' then
        match consume (c :: cs) '(' with
        | .error err => .error err
        | .ok s1 =>
          match parse_expr fuel s1 with
          | .error err => .error err
          | .ok (e, s2) =>
            match skip_whitespace s2 with
            | ')' :: s3 => .ok (e, s3)
            | _ => .error .missingCloseParen
      else if cIsAlpha c then .ok (parse_var (c :: cs))
      else if c = '_' then parse_let fuel (c :: cs)
      else .error .invalidInput

/-- parse_let from src/parse.cpp: consume "_let", a variable, '=', the
bound expression, "_in", and the body, with whitespace skipped between
every step.  The binder name is recovered by printing the parsed variable
(string lhs = e->to_string() in the source). -/
def parse_let : Nat → List Char → Except PErr (Expr × List Char)
  | 0, _ => .error .outOfFuel
  | fuel + 1, s =>
    match consume_word (skip_whitespace s) ('_' :: 'l' :: 'e' :: 't' :: []) with
    | .error err => .error err
    | .ok s1 =>
      match parse_var (skip_whitespace s1) with
      | (eVar, s2) =>
        match consume (skip_whitespace s2) '=' with
        | .error err => .error err
        | .ok s3 =>
          match parse_expr fuel (skip_whitespace s3) with
          | .error err => .error err
          | .ok (rhs, s4) =>
            match consume_word (skip_whitespace s4) ('_' :: 'i' :: 'n' :: []) with
            | .error err => .error err
            | .ok s5 =>
              match parse_expr fuel (skip_whitespace s5) with
              | .error err => .error err
              | .ok (body, s6) =>
                .ok (.letE (Expr.to_string eVar) rhs body, s6)

end

/-- parse from src/parse.cpp: one expression, then mandatory trailing
whitespace; any remaining content is "invalid input". -/
def parse (fuel : Nat) (s : List Char) : Except PErr Expr :=
  match parse_expr fuel s with
  | .error err => .error err
  | .ok (e, s1) =>
    match skip_whitespace s1 with
    | [] => .ok e
    | _ :: _ => .error .invalidInput

/-- parse_str from src/parse.cpp: parse from a string. -/
def parse_str (fuel : Nat) (s : String) : Except PErr Expr :=
  parse fuel s.toList

/-! ## The pretty printer, from the pretty_print_at methods of
src/Expr.cpp

The ostream is modelled as the list of characters emitted so far (so
tellp is its length) and the streampos reference parameter as a Nat
threaded in and out. -/

/-- The precedence levels of Expr.hpp (modelled from the spec: none < add
< mult, lowest first). -/
def prec_none : Nat := 0

/-- Precedence of addition. -/
def prec_add : Nat := 1

/-- Precedence of multiplication. -/
def prec_mult : Nat := 2

/-- pretty_print_at from src/Expr.cpp.  NumExpr and VarExpr inherit the
base Expr::pretty_print_at, which falls back to print.  The FunExpr and
CallExpr overrides have empty bodies in the source and emit nothing. -/
def pretty_print_at : Expr → List Char → Nat → Bool → Nat → List Char × Nat
  | .num n, out, _, _, sp => (out ++ intRepr n, sp)
  | .var x, out, _, _, sp => (out ++ x.toList, sp)
  | .boolE b, out, _, _, sp =>
      (out ++ (if b then '_' :: 't' :: 'r' :: 'u' :: 'e' :: []
               else '_' :: 'f' :: 'a' :: 'l' :: 's' :: 'e' :: []), sp)
  | .add l r, out, prec, let_parent, sp =>
      let out1 := if prec_add ≤ prec then out ++ ['('] else out
      match pretty_print_at l out1 prec_add true sp with
      | (out2, sp2) =>
        let out3 := out2 ++ ' ' :: '+' :: ' ' :: []
        match pretty_print_at r out3 prec_none let_parent sp2 with
        | (out4, sp4) =>
          (if prec_add ≤ prec then out4 ++ [')'] else out4, sp4)
  | .mult l r, out, prec, let_parent, sp =>
      let parent := if prec_mult ≤ prec then false else let_parent
      let out1 := if prec_mult ≤ prec then out ++ ['('] else out
      match pretty_print_at l out1 prec_mult true sp with
      | (out2, sp2) =>
        let out3 := out2 ++ ' ' :: '*' :: ' ' :: []
        match pretty_print_at r out3 prec_add parent sp2 with
        | (out4, sp4) =>
          (if prec_mult ≤ prec then out4 ++ [')'] else out4, sp4)
  | .letE x r b, out, _, let_parent, sp =>
      let out1 := if let_parent then out ++ ['('] else out
      let depth := out1.length - sp
      let out2 := out1 ++ ('_' :: 'l' :: 'e' :: 't' :: ' ' :: []) ++ x.toList
                    ++ (' ' :: '=' :: ' ' :: [])
      match pretty_print_at r out2 prec_none false sp with
      | (out3, _) =>
        let out4 := out3 ++ ['\n']
        let sp4 := out4.length
        let out5 := out4 ++ List.replicate depth ' '
                      ++ ('_' :: 'i' :: 'n' :: ' ' :: ' ' :: [])
        match pretty_print_at b out5 prec_none false sp4 with
        | (out6, sp6) =>
          (if let_parent then out6 ++ [')'] else out6, sp6)
  | .ifE c t e, out, _, let_parent, sp =>
      let out1 := if let_parent then out ++ ['('] else out
      let out2 := out1 ++ ('_' :: 'i' :: 'f' :: ' ' :: [])
      match pretty_print_at c out2 prec_none false sp with
      | (out3, _) =>
        let out4 := out3 ++ ['\n']
        let sp4 := out4.length
        let out5 := out4 ++ ('_' :: 't' :: 'h' :: 'e' :: 'n' :: ' ' :: [])
        match pretty_print_at t out5 prec_none false sp4 with
        | (out6, _) =>
          let out7 := out6 ++ ['\n'] ++ ('_' :: 'e' :: 'l' :: 's' :: 'e' :: ' ' :: [])
          let sp7 := out7.length
          match pretty_print_at e out7 prec_none false sp7 with
          | (out8, sp8) =>
            ((if let_parent then out8 ++ [')'] else out8) ++ ['\n'], sp8)
  | .eq l r, out, _, let_parent, sp =>
      let out1 := if let_parent then out ++ ['('] else out
      match pretty_print_at l out1 prec_none false sp with
      | (out2, sp2) =>
        let out3 := out2 ++ ('=' :: '=' :: [])
        match pretty_print_at r out3 prec_none false sp2 with
        | (out4, sp4) =>
          (if let_parent then out4 ++ [')'] else out4, sp4)
  | .funE _ _, out, _, _, sp => (out, sp)
  | .call _ _, out, _, _, sp => (out, sp)

/-- Expr::to_pretty_string from src/Expr.cpp: pretty_print into a string
stream, starting at precedence prec_none with no parent parenthesization
and stream position zero. -/
def Expr.to_pretty_string (e : Expr) : String :=
  String.mk (pretty_print_at e [] prec_none false 0).1

/-! ## Auxiliary notions used by the statements -/

/-- Size of an expression, used only for fuel accounting. -/
def esize : Expr → Nat
  | .num _ => 1
  | .boolE _ => 1
  | .var _ => 1
  | .add l r => esize l + esize r + 1
  | .mult l r => esize l + esize r + 1
  | .eq l r => esize l + esize r + 1
  | .ifE c t e => esize c + esize t + esize e + 1
  | .letE _ r b => esize r + esize b + 1
  | .funE _ b => esize b + 1
  | .call f a => esize f + esize a + 1

/-- A nonempty, all-alphabetic identifier, as produced by parse_var. -/
def isIdent (x : String) : Bool :=
  !x.toList.isEmpty && x.toList.all cIsAlpha

/-- Expressions generated by the grammar actually implemented by
src/parse.cpp: numbers, identifiers, addition, multiplication and let,
with grammatical identifiers. -/
def CoreGrammatical : Expr → Bool
  | .num _ => true
  | .var x => isIdent x
  | .add l r => CoreGrammatical l && CoreGrammatical r
  | .mult l r => CoreGrammatical l && CoreGrammatical r
  | .letE x r b => isIdent x && CoreGrammatical r && CoreGrammatical b
  | _ => false

/-- True when the list is empty or its head fails the predicate. -/
def headNot (p : Char → Bool) : List Char → Bool
  | [] => true
  | c :: _ => !p c

/-- True when the list is empty or its head differs from the character. -/
def headNe (c : Char) : List Char → Bool
  | [] => true
  | d :: _ => !(d == c)

/-- The guard a trailing context must satisfy for a printed expression to
be re-read unchanged: nothing may extend a maximal digit or letter run. -/
def restGuard : Expr → List Char → Bool
  | .num _, rest => headNot cIsDigit rest
  | .var _, rest => headNot cIsAlpha rest
  | _, _ => true

/-- The decimal value of a digit string, most significant digit first:
each digit contributes its value times ten to the number of digits after
it.  This is the specification-side reading of a literal, independent of
parse_num's accumulator loop. -/
def decValue : List Char → Int
  | [] => 0
  | c :: cs => ((c.toNat : Int) - 48) * 10 ^ cs.length + decValue cs

/-! ## Character-class facts -/

theorem cIsAlpha_not_space {c : Char} (h : cIsAlpha c = true) :
    cIsSpace c = false := by
  simp only [cIsAlpha, Bool.or_eq_true, Bool.and_eq_true, decide_eq_true_eq] at h
  simp only [cIsSpace, Bool.or_eq_false_iff, decide_eq_false_iff_not]
  omega

theorem cIsAlpha_not_digit {c : Char} (h : cIsAlpha c = true) :
    cIsDigit c = false := by
  simp only [cIsAlpha, Bool.or_eq_true, Bool.and_eq_true, decide_eq_true_eq] at h
  simp only [cIsDigit, Bool.and_eq_false_iff, decide_eq_false_iff_not]
  omega

theorem cIsDigit_not_space {c : Char} (h : cIsDigit c = true) :
    cIsSpace c = false := by
  simp only [cIsDigit, Bool.and_eq_true, decide_eq_true_eq] at h
  simp only [cIsSpace, Bool.or_eq_false_iff, decide_eq_false_iff_not]
  omega

theorem cIsDigit_not_alpha {c : Char} (h : cIsDigit c = true) :
    cIsAlpha c = false := by
  simp only [cIsDigit, Bool.and_eq_true, decide_eq_true_eq] at h
  simp only [cIsAlpha, Bool.or_eq_false_iff, Bool.and_eq_false_iff,
    decide_eq_false_iff_not]
  omega

theorem cIsAlpha_ne_minus {c : Char} (h : cIsAlpha c = true) : c ≠ '-' := by
  intro hc; subst hc; exact absurd h (by decide)

theorem cIsAlpha_ne_lparen {c : Char} (h : cIsAlpha c = true) : c ≠ '(' := by
  intro hc; subst hc; exact absurd h (by decide)

theorem cIsDigit_ne_minus {c : Char} (h : cIsDigit c = true) : c ≠ '-' := by
  intro hc; subst hc; exact absurd h (by decide)

/-! ## skip_whitespace, consume, consume_word -/

theorem skip_whitespace_not_space {c : Char} {s : List Char}
    (h : cIsSpace c = false) : skip_whitespace (c :: s) = c :: s := by
  simp [skip_whitespace, h]

theorem skip_whitespace_space {s : List Char} :
    skip_whitespace (' ' :: s) = skip_whitespace s := by
  simp only [skip_whitespace]
  rw [if_pos (show cIsSpace ' ' = true by decide)]

theorem skip_whitespace_idem (s : List Char) :
    skip_whitespace (skip_whitespace s) = skip_whitespace s := by
  induction s with
  | nil => rfl
  | cons c cs ih =>
    by_cases h : cIsSpace c = true
    · simp [skip_whitespace, h, ih]
    · simp only [Bool.not_eq_true] at h
      rw [skip_whitespace_not_space h, skip_whitespace_not_space h]

theorem consume_word_append (w s : List Char) :
    consume_word (w ++ s) w = .ok s := by
  induction w with
  | nil => simp [consume_word]
  | cons c ws ih => simp [consume_word, ih]

/-! ## parse_var -/

theorem varLoop_append {xs rest : List Char}
    (h1 : xs.all cIsAlpha = true) (h2 : headNot cIsAlpha rest = true) :
    varLoop (xs ++ rest) = (xs, rest) := by
  induction xs with
  | nil =>
    cases rest with
    | nil => rfl
    | cons c cs =>
      simp only [headNot, Bool.not_eq_true'] at h2
      simp [varLoop, h2]
  | cons c cs ih =>
    simp only [List.all_cons, Bool.and_eq_true] at h1
    simp [varLoop, h1.1, ih h1.2]

theorem string_mk_toList (s : String) : String.mk s.toList = s := rfl

theorem parse_var_append {x : String} {rest : List Char}
    (h1 : isIdent x = true) (h2 : headNot cIsAlpha rest = true) :
    parse_var (x.toList ++ rest) = (.var x, rest) := by
  simp only [isIdent, Bool.and_eq_true] at h1
  have hv := varLoop_append h1.2 h2
  simp only [parse_var, hv]
  rw [string_mk_toList]

theorem to_string_var (x : String) : Expr.to_string (.var x) = x := by
  simp [Expr.to_string, printChars, string_mk_toList]

/-! ## Decimal digits and parse_num -/

theorem digitChar_isDigit {d : Nat} (h : d < 10) :
    cIsDigit (digitChar d) = true := by
  interval_cases d <;> decide

theorem digitChar_val {d : Nat} (h : d < 10) :
    ((digitChar d).toNat : Int) - 48 = (d : Int) := by
  interval_cases d <;> decide

theorem natReprChars_all_digits (n : Nat) :
    (natReprChars n).all cIsDigit = true := by
  induction n using Nat.strong_induction_on with
  | _ n ih =>
    rw [natReprChars]
    split
    · simp [digitChar_isDigit, *]
    · rename_i h
      rw [List.all_append]
      have h1 := ih (n / 10) (Nat.div_lt_self (by omega) (by omega))
      have h2 := digitChar_isDigit (Nat.mod_lt n (by omega))
      simp [h1, h2]

theorem natReprChars_head (n : Nat) :
    ∃ c cs, natReprChars n = c :: cs ∧ cIsDigit c = true := by
  induction n using Nat.strong_induction_on with
  | _ n ih =>
    rw [natReprChars]
    split
    · exact ⟨digitChar n, [], rfl, digitChar_isDigit (by omega)⟩
    · rename_i h
      obtain ⟨c, cs, hrepr, hdig⟩ :=
        ih (n / 10) (Nat.div_lt_self (by omega) (by omega))
      exact ⟨c, cs ++ [digitChar (n % 10)], by rw [hrepr]; rfl, hdig⟩

theorem parseNumLoop_append {ds rest : List Char} (a : Int)
    (h1 : ds.all cIsDigit = true) (h2 : headNot cIsDigit rest = true) :
    parseNumLoop a (ds ++ rest) =
      (List.foldl (fun n c => n * 10 + ((c.toNat : Int) - 48)) a ds, rest) := by
  induction ds generalizing a with
  | nil =>
    cases rest with
    | nil => rfl
    | cons c cs =>
      simp only [headNot, Bool.not_eq_true'] at h2
      simp [parseNumLoop, h2]
  | cons d ds ih =>
    simp only [List.all_cons, Bool.and_eq_true] at h1
    simp [parseNumLoop, h1.1, ih _ h1.2]

theorem foldl_natReprChars (n : Nat) : ∀ a : Int,
    List.foldl (fun m c => m * 10 + ((c.toNat : Int) - 48)) a (natReprChars n) =
      a * 10 ^ (natReprChars n).length + n := by
  induction n using Nat.strong_induction_on with
  | _ n ih =>
    intro a
    rw [natReprChars]
    split
    · rename_i h
      simp [digitChar_val h]
    · rename_i h
      rw [List.foldl_append, List.length_append,
        ih (n / 10) (Nat.div_lt_self (by omega) (by omega)) a]
      simp only [List.foldl_cons, List.foldl_nil, List.length_cons,
        List.length_nil]
      rw [digitChar_val (Nat.mod_lt n (by omega))]
      have hsplit : ((n / 10 : Nat) : Int) * 10 + ((n % 10 : Nat) : Int) = (n : Int) := by
        push_cast
        omega
      rw [pow_succ]
      ring_nf
      ring_nf at hsplit
      omega

theorem parse_num_digits {ds rest : List Char}
    (h0 : ds ≠ []) (h1 : ds.all cIsDigit = true)
    (h2 : headNot cIsDigit rest = true) :
    parse_num (ds ++ rest) =
      .ok (.num (List.foldl (fun n c => n * 10 + ((c.toNat : Int) - 48)) 0 ds),
           rest) := by
  cases ds with
  | nil => exact absurd rfl h0
  | cons d ds =>
    have hdig : cIsDigit d = true := by
      have := h1
      simp only [List.all_cons, Bool.and_eq_true] at this
      exact this.1
    simp only [List.cons_append, parse_num]
    rw [if_neg (cIsDigit_ne_minus hdig)]
    have hloop := @parseNumLoop_append (d :: ds) rest 0 h1 h2
    simp only [List.cons_append] at hloop
    rw [hloop]

theorem parse_num_intRepr (n : Int) {rest : List Char}
    (h : headNot cIsDigit rest = true) :
    parse_num (intRepr n ++ rest) = .ok (.num n, rest) := by
  by_cases hn : n < 0
  · rw [intRepr, if_pos hn]
    obtain ⟨c, cs, hrepr, hdig⟩ := natReprChars_head n.natAbs
    rw [hrepr]
    have hall := natReprChars_all_digits n.natAbs
    rw [hrepr] at hall
    have hloop := @parseNumLoop_append (c :: cs) rest 0 hall h
    have hfold := foldl_natReprChars n.natAbs 0
    rw [hrepr] at hfold
    have hAbs : -((n.natAbs : Nat) : Int) = n := by omega
    simp only [List.cons_append, parse_num]
    rw [if_pos trivial, if_pos hdig]
    simp only [List.cons_append] at hloop
    rw [hloop, hfold]
    simp only [zero_mul, zero_add]
    rw [hAbs]
  · rw [intRepr, if_neg hn]
    have hne : natReprChars n.toNat ≠ [] := by
      obtain ⟨c, cs, hrepr, _⟩ := natReprChars_head n.toNat
      rw [hrepr]; simp
    rw [parse_num_digits hne (natReprChars_all_digits n.toNat) h,
      foldl_natReprChars n.toNat 0]
    simp only [zero_mul, zero_add]
    have : ((n.toNat : Nat) : Int) = n := by omega
    rw [this]

/-! ## Stepping lemmas for the mutually recursive parser -/

theorem addend_of_multicand {fuel : Nat} {s s1 : List Char} {e : Expr}
    (h : parse_multicand fuel s = .ok (e, s1))
    (h2 : headNe '*' (skip_whitespace s1) = true) :
    parse_addend (fuel + 1) s = .ok (e, skip_whitespace s1) := by
  simp only [parse_addend, h]
  cases hsw : skip_whitespace s1 with
  | nil => rfl
  | cons c s2 =>
    rw [hsw] at h2
    simp only [headNe, Bool.not_eq_true'] at h2
    dsimp only
    rw [if_neg (by simpa using h2)]

theorem expr_of_addend {fuel : Nat} {s s1 : List Char} {e : Expr}
    (h : parse_addend fuel s = .ok (e, s1))
    (h2 : headNe '+' (skip_whitespace s1) = true) :
    parse_expr (fuel + 1) s = .ok (e, skip_whitespace s1) := by
  simp only [parse_expr, h]
  cases hsw : skip_whitespace s1 with
  | nil => rfl
  | cons c s2 =>
    rw [hsw] at h2
    simp only [headNe, Bool.not_eq_true'] at h2
    dsimp only
    rw [if_neg (by simpa using h2)]

theorem expr_plus {fuel : Nat} {s s1 s2 s3 : List Char} {l rhs : Expr}
    (h1 : parse_addend fuel s = .ok (l, s1))
    (h2 : skip_whitespace s1 = '+' :: s2)
    (h3 : parse_expr fuel s2 = .ok (rhs, s3)) :
    parse_expr (fuel + 1) s = .ok (.add l rhs, s3) := by
  simp [parse_expr, h1, h2, h3]

theorem addend_star {fuel : Nat} {s s1 s2 s3 : List Char} {e rhs : Expr}
    (h1 : parse_multicand fuel s = .ok (e, s1))
    (h2 : skip_whitespace s1 = '*' :: s2)
    (h3 : parse_addend fuel (skip_whitespace s2) = .ok (rhs, s3)) :
    parse_addend (fuel + 1) s = .ok (.mult e rhs, s3) := by
  simp [parse_addend, h1, h2, h3]

theorem multicand_paren {fuel : Nat} {s s2 s3 : List Char} {e : Expr}
    (h : parse_expr fuel s = .ok (e, s2))
    (h2 : skip_whitespace s2 = ')' :: s3) :
    parse_multicand (fuel + 1) ('(' :: s) = .ok (e, s3) := by
  simp only [parse_multicand]
  rw [skip_whitespace_not_space (by decide : cIsSpace '(' = false)]
  dsimp only
  rw [if_neg (by decide : ¬('(' = '-' ∨ cIsDigit '(' = true))]
  rw [if_pos (rfl : '(' = '(')]
  rw [show consume ('(' :: s) '(' = .ok s by simp [consume]]
  simp [h, h2]

theorem multicand_alpha {fuel : Nat} {c : Char} {s : List Char}
    (h : cIsAlpha c = true) :
    parse_multicand (fuel + 1) (c :: s) = .ok (parse_var (c :: s)) := by
  simp only [parse_multicand]
  rw [skip_whitespace_not_space (cIsAlpha_not_space h)]
  dsimp only
  rw [if_neg (by simp [cIsAlpha_ne_minus h, cIsAlpha_not_digit h])]
  rw [if_neg (cIsAlpha_ne_lparen h)]
  rw [if_pos h]

theorem multicand_num {fuel : Nat} {c : Char} {s : List Char}
    (h : c = '-' ∨ cIsDigit c = true) :
    parse_multicand (fuel + 1) (c :: s) = parse_num (c :: s) := by
  have hns : cIsSpace c = false := by
    rcases h with h | h
    · subst h; decide
    · exact cIsDigit_not_space h
  simp only [parse_multicand]
  rw [skip_whitespace_not_space hns]
  dsimp only
  rw [if_pos h]

theorem multicand_under {fuel : Nat} {s : List Char} :
    parse_multicand (fuel + 1) ('_' :: s) = parse_let fuel ('_' :: s) := by
  simp only [parse_multicand]
  rw [skip_whitespace_not_space (by decide : cIsSpace '_' = false)]
  dsimp only
  rw [if_neg (by decide : ¬('_' = '-' ∨ cIsDigit '_' = true))]
  rw [if_neg (by decide : ¬('_' = '('))]
  rw [if_neg (by decide : ¬(cIsAlpha '_' = true))]
  rw [if_pos (rfl : '_' = '_')]

/-! ## Facts about printed output -/

theorem restGuard_cons {e : Expr} {c : Char} {rest : List Char}
    (h1 : cIsDigit c = false) (h2 : cIsAlpha c = false) :
    restGuard e (c :: rest) = true := by
  cases e <;> simp [restGuard, headNot, h1, h2]

theorem restGuard_nil (e : Expr) : restGuard e [] = true := by
  cases e <;> rfl

theorem skip_whitespace_printChars {e : Expr} {rest : List Char}
    (h : CoreGrammatical e = true) :
    skip_whitespace (printChars e ++ rest) = printChars e ++ rest := by
  cases e with
  | num n =>
    simp only [printChars, intRepr]
    by_cases hn : n < 0
    · rw [if_pos hn]
      simp only [List.cons_append]
      exact skip_whitespace_not_space (by decide)
    · rw [if_neg hn]
      obtain ⟨c, cs, hr, hd⟩ := natReprChars_head n.toNat
      rw [hr]
      simp only [List.cons_append]
      exact skip_whitespace_not_space (cIsDigit_not_space hd)
  | var x =>
    simp only [CoreGrammatical, isIdent, Bool.and_eq_true] at h
    cases hx : x.toList with
    | nil => rw [hx] at h; exact absurd h.1 (by decide)
    | cons c cs =>
      have halpha : cIsAlpha c = true := by
        have := h.2; rw [hx] at this
        simp only [List.all_cons, Bool.and_eq_true] at this
        exact this.1
      simp only [printChars, hx, List.cons_append]
      exact skip_whitespace_not_space (cIsAlpha_not_space halpha)
  | add l r =>
    simp only [printChars, List.cons_append]
    exact skip_whitespace_not_space (by decide)
  | mult l r =>
    simp only [printChars, List.cons_append]
    exact skip_whitespace_not_space (by decide)
  | letE x r b =>
    simp only [printChars, List.cons_append]
    exact skip_whitespace_not_space (by decide)
  | boolE b => simp [CoreGrammatical] at h
  | eq l r => simp [CoreGrammatical] at h
  | ifE c t f => simp [CoreGrammatical] at h
  | funE p b => simp [CoreGrammatical] at h
  | call f a => simp [CoreGrammatical] at h

theorem equals_refl (e : Expr) : equals e e = true := by
  induction e <;> simp [equals, *]

theorem esize_pos (e : Expr) : 1 ≤ esize e := by
  cases e <;> simp [esize]

theorem headNot_cons {p : Char → Bool} {c : Char} {t : List Char}
    (h : p c = false) : headNot p (c :: t) = true := by
  simp [headNot, h]

theorem skip_whitespace_alpha_append {xs rest : List Char}
    (h1 : xs ≠ []) (h2 : xs.all cIsAlpha = true) :
    skip_whitespace (xs ++ rest) = xs ++ rest := by
  cases xs with
  | nil => exact absurd rfl h1
  | cons c cs =>
    simp only [List.all_cons, Bool.and_eq_true] at h2
    simp only [List.cons_append]
    exact skip_whitespace_not_space (cIsAlpha_not_space h2.1)

theorem isIdent_parts {x : String} (h : isIdent x = true) :
    x.toList ≠ [] ∧ x.toList.all cIsAlpha = true := by
  simp only [isIdent, Bool.and_eq_true] at h
  refine ⟨?_, h.2⟩
  intro hx
  rw [hx] at h
  exact absurd h.1 (by decide)

theorem skip_whitespace_ident {x : String} {rest : List Char}
    (h : isIdent x = true) :
    skip_whitespace (x.toList ++ rest) = x.toList ++ rest :=
  skip_whitespace_alpha_append (isIdent_parts h).1 (isIdent_parts h).2

theorem addend_keep {fuel : Nat} {s t : List Char} {e : Expr} {c : Char}
    (h : parse_multicand fuel s = .ok (e, c :: t))
    (hns : cIsSpace c = false) (hstar : (c == '*') = false) :
    parse_addend (fuel + 1) s = .ok (e, c :: t) := by
  have h2 : headNe '*' (skip_whitespace (c :: t)) = true := by
    rw [skip_whitespace_not_space hns]; simp [headNe, hstar]
  have h3 := addend_of_multicand h h2
  rwa [skip_whitespace_not_space hns] at h3

theorem expr_keep {fuel : Nat} {s t : List Char} {e : Expr} {c : Char}
    (h : parse_addend fuel s = .ok (e, c :: t))
    (hns : cIsSpace c = false) (hplus : (c == '+') = false) :
    parse_expr (fuel + 1) s = .ok (e, c :: t) := by
  have h2 : headNe '+' (skip_whitespace (c :: t)) = true := by
    rw [skip_whitespace_not_space hns]; simp [headNe, hplus]
  have h3 := expr_of_addend h h2
  rwa [skip_whitespace_not_space hns] at h3

theorem multicand_intRepr {fuel : Nat} (n : Int) {rest : List Char}
    (h : headNot cIsDigit rest = true) :
    parse_multicand (fuel + 1) (intRepr n ++ rest) = .ok (.num n, rest) := by
  have hp := parse_num_intRepr n h
  by_cases hn : n < 0
  · rw [intRepr, if_pos hn] at hp ⊢
    simp only [List.cons_append] at hp ⊢
    rw [multicand_num (Or.inl rfl), hp]
  · rw [intRepr, if_neg hn] at hp ⊢
    obtain ⟨c, cs, hr, hd⟩ := natReprChars_head n.toNat
    rw [hr] at hp ⊢
    simp only [List.cons_append] at hp ⊢
    rw [multicand_num (Or.inr hd), hp]

theorem multicand_alpha_append {fuel : Nat} {xs rest : List Char}
    (h1 : xs ≠ []) (h2 : xs.all cIsAlpha = true) :
    parse_multicand (fuel + 1) (xs ++ rest) = .ok (parse_var (xs ++ rest)) := by
  cases xs with
  | nil => exact absurd rfl h1
  | cons c cs =>
    simp only [List.all_cons, Bool.and_eq_true] at h2
    simp only [List.cons_append]
    exact multicand_alpha h2.1

theorem multicand_varPrint {fuel : Nat} {x : String} {rest : List Char}
    (h1 : isIdent x = true) (h2 : headNot cIsAlpha rest = true) :
    parse_multicand (fuel + 1) (x.toList ++ rest) = .ok (.var x, rest) := by
  rw [multicand_alpha_append (isIdent_parts h1).1 (isIdent_parts h1).2,
    parse_var_append h1 h2]

/-- The central induction: re-parsing the canonical print of any
expression of the core grammar consumes exactly the printed characters
and rebuilds the same tree, for any trailing context that cannot extend a
digit or letter run. -/
theorem multicand_printChars : ∀ e : Expr, CoreGrammatical e = true →
    ∀ (rest : List Char) (fuel : Nat), restGuard e rest = true →
    4 * esize e ≤ fuel →
    parse_multicand fuel (printChars e ++ rest) = .ok (e, rest) := by
  intro e
  induction e with
  | num n =>
    intro _ rest fuel hg hf
    simp only [esize] at hf
    obtain ⟨k, rfl⟩ : ∃ k, fuel = k + 1 := ⟨fuel - 1, by omega⟩
    simp only [printChars]
    exact multicand_intRepr n hg
  | var x =>
    intro h rest fuel hg hf
    simp only [CoreGrammatical] at h
    simp only [esize] at hf
    obtain ⟨k, rfl⟩ : ∃ k, fuel = k + 1 := ⟨fuel - 1, by omega⟩
    simp only [printChars]
    exact multicand_varPrint h hg
  | add l r ihl ihr =>
    intro h rest fuel _ hf
    simp only [CoreGrammatical, Bool.and_eq_true] at h
    simp only [esize] at hf
    have hl1 := esize_pos l
    have hr1 := esize_pos r
    obtain ⟨k, rfl⟩ : ∃ k, fuel = k + 4 := ⟨fuel - 4, by omega⟩
    simp only [printChars, List.cons_append, List.nil_append, List.append_assoc]
    have hmul_l : parse_multicand (k + 1)
        (printChars l ++ '+' :: (printChars r ++ ')' :: rest)) =
        .ok (l, '+' :: (printChars r ++ ')' :: rest)) :=
      ihl h.1 _ (k + 1) (restGuard_cons (by decide) (by decide)) (by omega)
    have ha_l := addend_keep hmul_l (by decide) (by decide)
    have hmul_r : parse_multicand k (printChars r ++ ')' :: rest) =
        .ok (r, ')' :: rest) :=
      ihr h.2 _ k (restGuard_cons (by decide) (by decide)) (by omega)
    have ha_r := addend_keep hmul_r (by decide) (by decide)
    have hx_r := expr_keep ha_r (by decide) (by decide)
    have hx := expr_plus ha_l (skip_whitespace_not_space (by decide)) hx_r
    exact multicand_paren hx (skip_whitespace_not_space (by decide))
  | mult l r ihl ihr =>
    intro h rest fuel _ hf
    simp only [CoreGrammatical, Bool.and_eq_true] at h
    simp only [esize] at hf
    have hl1 := esize_pos l
    have hr1 := esize_pos r
    obtain ⟨k, rfl⟩ : ∃ k, fuel = k + 4 := ⟨fuel - 4, by omega⟩
    simp only [printChars, List.cons_append, List.nil_append, List.append_assoc]
    have hmul_l : parse_multicand (k + 1)
        (printChars l ++ '*' :: (printChars r ++ ')' :: rest)) =
        .ok (l, '*' :: (printChars r ++ ')' :: rest)) :=
      ihl h.1 _ (k + 1) (restGuard_cons (by decide) (by decide)) (by omega)
    have hmul_r : parse_multicand k (printChars r ++ ')' :: rest) =
        .ok (r, ')' :: rest) :=
      ihr h.2 _ k (restGuard_cons (by decide) (by decide)) (by omega)
    have ha_r := addend_keep hmul_r (by decide) (by decide)
    have ha : parse_addend (k + 2)
        (printChars l ++ '*' :: (printChars r ++ ')' :: rest)) =
        .ok (.mult l r, ')' :: rest) := by
      refine addend_star hmul_l (skip_whitespace_not_space (by decide)) ?_
      rw [skip_whitespace_printChars h.2]
      exact ha_r
    have hx := expr_keep ha (by decide) (by decide)
    exact multicand_paren hx (skip_whitespace_not_space (by decide))
  | letE x r b ihr ihb =>
    intro h rest fuel _ hf
    simp only [CoreGrammatical, Bool.and_eq_true] at h
    simp only [esize] at hf
    have hr1 := esize_pos r
    have hb1 := esize_pos b
    obtain ⟨k, rfl⟩ : ∃ k, fuel = k + 8 := ⟨fuel - 8, by omega⟩
    simp only [printChars, List.cons_append, List.nil_append, List.append_assoc]
    have hmul_b : parse_multicand (k + 1) (printChars b ++ ')' :: rest) =
        .ok (b, ')' :: rest) :=
      ihb h.2 _ (k + 1) (restGuard_cons (by decide) (by decide)) (by omega)
    have ha_b := addend_keep hmul_b (by decide) (by decide)
    have hx_b : parse_expr (k + 3) (printChars b ++ ')' :: rest) =
        .ok (b, ')' :: rest) := expr_keep ha_b (by decide) (by decide)
    have hmul_r : parse_multicand (k + 1)
        (printChars r ++ ' ' :: '_' :: 'i' :: 'n' :: ' ' :: (printChars b ++ ')' :: rest)) =
        .ok (r, ' ' :: '_' :: 'i' :: 'n' :: ' ' :: (printChars b ++ ')' :: rest)) :=
      ihr h.1.2 _ (k + 1) (restGuard_cons (by decide) (by decide)) (by omega)
    have hsw : skip_whitespace
        (' ' :: '_' :: 'i' :: 'n' :: ' ' :: (printChars b ++ ')' :: rest)) =
        '_' :: 'i' :: 'n' :: ' ' :: (printChars b ++ ')' :: rest) := by
      rw [skip_whitespace_space]
      exact skip_whitespace_not_space (by decide)
    have ha_r := addend_of_multicand hmul_r (by rw [hsw]; simp [headNe])
    rw [hsw] at ha_r
    have hx_r0 := expr_of_addend ha_r
      (by rw [skip_whitespace_not_space (by decide : cIsSpace '_' = false)]
          simp [headNe])
    rw [skip_whitespace_not_space (by decide : cIsSpace '_' = false)] at hx_r0
    have hx_r : parse_expr (k + 3)
        (printChars r ++ ' ' :: '_' :: 'i' :: 'n' :: ' ' ::
          (printChars b ++ ')' :: rest)) =
        .ok (r, '_' :: 'i' :: 'n' :: ' ' :: (printChars b ++ ')' :: rest)) := hx_r0
    have hlet : parse_let (k + 4)
        ('_' :: 'l' :: 'e' :: 't' :: ' ' :: (x.toList ++ '=' ::
          (printChars r ++ ' ' :: '_' :: 'i' :: 'n' :: ' ' ::
            (printChars b ++ ')' :: rest)))) =
        .ok (.letE x r b, ')' :: rest) := by
      simp only [parse_let]
      rw [skip_whitespace_not_space (by decide : cIsSpace '_' = false)]
      rw [show ('_' :: 'l' :: 'e' :: 't' :: ' ' :: (x.toList ++ '=' ::
          (printChars r ++ ' ' :: '_' :: 'i' :: 'n' :: ' ' ::
            (printChars b ++ ')' :: rest)))) =
          ('_' :: 'l' :: 'e' :: 't' :: []) ++ (' ' :: (x.toList ++ '=' ::
          (printChars r ++ ' ' :: '_' :: 'i' :: 'n' :: ' ' ::
            (printChars b ++ ')' :: rest)))) from rfl]
      rw [consume_word_append]
      dsimp only
      rw [skip_whitespace_space, skip_whitespace_ident h.1.1]
      rw [parse_var_append h.1.1 (headNot_cons (by decide))]
      dsimp only
      rw [skip_whitespace_not_space (by decide : cIsSpace '=' = false)]
      rw [show consume ('=' :: (printChars r ++ ' ' :: '_' :: 'i' :: 'n' :: ' ' ::
            (printChars b ++ ')' :: rest))) '=' =
          .ok (printChars r ++ ' ' :: '_' :: 'i' :: 'n' :: ' ' ::
            (printChars b ++ ')' :: rest)) by simp [consume]]
      dsimp only
      rw [skip_whitespace_printChars h.1.2]
      rw [hx_r]
      dsimp only
      rw [skip_whitespace_not_space (by decide : cIsSpace '_' = false)]
      rw [show ('_' :: 'i' :: 'n' :: ' ' :: (printChars b ++ ')' :: rest)) =
          ('_' :: 'i' :: 'n' :: []) ++ (' ' :: (printChars b ++ ')' :: rest))
          from rfl]
      rw [consume_word_append]
      dsimp only
      rw [skip_whitespace_space, skip_whitespace_printChars h.2]
      rw [hx_b]
      dsimp only
      rw [to_string_var]
    have hm : parse_multicand ((k + 4) + 1)
        ('_' :: 'l' :: 'e' :: 't' :: ' ' :: (x.toList ++ '=' ::
          (printChars r ++ ' ' :: '_' :: 'i' :: 'n' :: ' ' ::
            (printChars b ++ ')' :: rest)))) =
        .ok (.letE x r b, ')' :: rest) := by
      rw [multicand_under]
      exact hlet
    have ha := addend_keep hm (by decide) (by decide)
    have hx := expr_keep ha (by decide) (by decide)
    exact multicand_paren hx (skip_whitespace_not_space (by decide))
  | boolE b => intro h; simp [CoreGrammatical] at h
  | eq l r ihl ihr => intro h; simp [CoreGrammatical] at h
  | ifE c t f ihc iht ihf => intro h; simp [CoreGrammatical] at h
  | funE p b ihb => intro h; simp [CoreGrammatical] at h
  | call f a ihf iha => intro h; simp [CoreGrammatical] at h

/-- Parsing the canonical print of a core-grammar expression at the
parse_expr level, with a trailing context that starts with no operator. -/
theorem expr_printChars {e : Expr} {rest : List Char} {fuel : Nat}
    (h : CoreGrammatical e = true) (hg : restGuard e rest = true)
    (hstar : headNe '*' (skip_whitespace rest) = true)
    (hplus : headNe '+' (skip_whitespace rest) = true)
    (hfuel : 4 * esize e + 2 ≤ fuel) :
    parse_expr fuel (printChars e ++ rest) = .ok (e, skip_whitespace rest) := by
  obtain ⟨k, rfl⟩ : ∃ k, fuel = k + 2 := ⟨fuel - 2, by omega⟩
  have hm := multicand_printChars e h rest k hg (by omega)
  have ha := addend_of_multicand hm hstar
  have hx := expr_of_addend ha (by rw [skip_whitespace_idem]; exact hplus)
  rwa [skip_whitespace_idem] at hx

/-- Whole-input parse of a canonical print of a core-grammar expression. -/
theorem parse_printChars {e : Expr} {fuel : Nat}
    (h : CoreGrammatical e = true) (hfuel : 4 * esize e + 2 ≤ fuel) :
    parse fuel (printChars e) = .ok e := by
  have hx := expr_printChars h (restGuard_nil e) (by rfl) (by rfl) hfuel
  rw [List.append_nil] at hx
  simp only [parse, hx, skip_whitespace]

theorem skip_whitespace_printChars_nil {e : Expr}
    (h : CoreGrammatical e = true) :
    skip_whitespace (printChars e) = printChars e := by
  have h2 := @skip_whitespace_printChars e [] h
  rwa [List.append_nil] at h2

theorem foldl_decValue : ∀ (ds : List Char) (a : Int),
    List.foldl (fun n c => n * 10 + ((c.toNat : Int) - 48)) a ds =
      a * 10 ^ ds.length + decValue ds := by
  intro ds
  induction ds with
  | nil => intro a; simp [decValue]
  | cons c cs ih =>
    intro a
    simp only [List.foldl_cons, List.length_cons, decValue]
    rw [ih]
    rw [pow_succ]
    ring

theorem cIsDigit_toNat_bounds {c : Char} (h : cIsDigit c = true) :
    48 ≤ (c.toNat : Int) ∧ (c.toNat : Int) ≤ 57 := by
  simp only [cIsDigit, Bool.and_eq_true, decide_eq_true_eq] at h
  omega

theorem decValue_nonneg {ds : List Char} (h : ds.all cIsDigit = true) :
    0 ≤ decValue ds := by
  induction ds with
  | nil => simp [decValue]
  | cons c cs ih =>
    simp only [List.all_cons, Bool.and_eq_true] at h
    have hc := cIsDigit_toNat_bounds h.1
    have hpow : (0 : Int) ≤ 10 ^ cs.length := pow_nonneg (by norm_num) _
    have hcs := ih h.2
    simp only [decValue]
    have hmul : (0 : Int) ≤ ((c.toNat : Int) - 48) * 10 ^ cs.length :=
      mul_nonneg (by omega) hpow
    omega

theorem int32wrap_eq_self {n : Int}
    (h1 : -2147483648 ≤ n) (h2 : n ≤ 2147483647) : int32wrap n = n := by
  simp only [int32wrap]
  omega

/-- On digit runs whose decimal value stays within int range, the
wrapping accumulator computes exactly the positional decimal value: every
intermediate wrap is the identity. -/
theorem parseNumLoopInt_inrange : ∀ (ds : List Char), ∀ (rest : List Char)
    (a : Int), 0 ≤ a → ds.all cIsDigit = true →
    headNot cIsDigit rest = true →
    a * 10 ^ ds.length + decValue ds ≤ 2147483647 →
    parseNumLoopInt a (ds ++ rest) =
      (a * 10 ^ ds.length + decValue ds, rest) := by
  intro ds
  induction ds with
  | nil =>
    intro rest a _ _ hrest _
    cases rest with
    | nil => simp [parseNumLoopInt, decValue]
    | cons c cs =>
      simp only [headNot, Bool.not_eq_true'] at hrest
      simp [parseNumLoopInt, hrest, decValue]
  | cons c cs ih =>
    intro rest a ha hall hrest hbound
    simp only [List.all_cons, Bool.and_eq_true] at hall
    have hd : cIsDigit c = true := hall.1
    have hc := cIsDigit_toNat_bounds hd
    have hdec := decValue_nonneg hall.2
    have hpow1 : (1 : Int) ≤ 10 ^ cs.length := by
      have := pow_pos (show (0 : Int) < 10 by norm_num) cs.length
      omega
    have hstep_bound :
        (a * 10 + ((c.toNat : Int) - 48)) * 10 ^ cs.length + decValue cs ≤
          2147483647 := by
      simp only [decValue, List.length_cons] at hbound
      calc (a * 10 + ((c.toNat : Int) - 48)) * 10 ^ cs.length + decValue cs
          = a * 10 ^ (cs.length + 1) +
              (((c.toNat : Int) - 48) * 10 ^ cs.length + decValue cs) := by
            rw [pow_succ]; ring
        _ ≤ 2147483647 := hbound
    have ha' : 0 ≤ a * 10 + ((c.toNat : Int) - 48) := by omega
    have hself : a * 10 + ((c.toNat : Int) - 48) ≤
        (a * 10 + ((c.toNat : Int) - 48)) * 10 ^ cs.length :=
      le_mul_of_one_le_right ha' hpow1
    have hwrap_in : a * 10 + ((c.toNat : Int) - 48) ≤ 2147483647 := by
      omega
    simp only [List.cons_append, parseNumLoopInt, if_pos hd]
    rw [int32wrap_eq_self (by omega) hwrap_in]
    refine (ih rest _ ha' hall.2 hrest hstep_bound).trans ?_
    simp only [decValue, List.length_cons, pow_succ, Prod.mk.injEq]
    constructor
    · ring
    · trivial

/-! ## The claims -/

/-- C1 (counterexample): the canonical-print round-trip fails already for
the boolean literal: BoolExpr(true) prints as the five characters of
underscore-true, and the parser of src/parse.cpp, whose multicand
dispatches every underscore to parse_let, throws a ParseError (consume
mismatch on the second keyword character) instead of returning a tree
equal to the input. -/
theorem C1_roundtrip_counterexample :
    (match parse_str 100 (Expr.to_string (.boolE true)) with
     | .ok p => equals p (.boolE true)
     | .error _ => false) = false := by
  rfl

/-- C1 (amended): canonical-print round-trip for the grammar the parser in
src/parse.cpp actually implements.  For every expression built from Num,
Var, Add, Mult and Let whose identifiers are nonempty alphabetic,
parse_str of to_string succeeds and the parsed tree equals the original
(given enough fuel, which only rules out the embedding artifact). -/
theorem C1_roundtrip_core (e : Expr) (h : CoreGrammatical e = true)
    (fuel : Nat) (hfuel : 4 * esize e + 2 ≤ fuel) :
    (match parse_str fuel (Expr.to_string e) with
     | .ok p => equals p e
     | .error _ => false) = true := by
  have hp : parse_str fuel (Expr.to_string e) = .ok e := by
    simp only [parse_str, Expr.to_string]
    rw [show (String.mk (printChars e)).toList = printChars e from rfl]
    exact parse_printChars h hfuel
  rw [hp]
  exact equals_refl e

/-- Witness for C1_roundtrip_core at a let-expression with an addition. -/
theorem C1_roundtrip_core_witness :
    CoreGrammatical (.letE "x" (.num 1) (.add (.var "x") (.num 2))) = true
    ∧ 4 * esize (.letE "x" (.num 1) (.add (.var "x") (.num 2))) + 2 ≤ 100
    ∧ (match parse_str 100
          (Expr.to_string (.letE "x" (.num 1) (.add (.var "x") (.num 2)))) with
       | .ok p => equals p (.letE "x" (.num 1) (.add (.var "x") (.num 2)))
       | .error _ => false) = true :=
  ⟨by decide, by decide, C1_roundtrip_core _ (by decide) 100 (by decide)⟩

/-- C2: the pretty-print round-trip fails for function literals and calls:
FunExpr::pretty_print_at and CallExpr::pretty_print_at have empty bodies
in src/Expr.cpp, so to_pretty_string of a function literal or a call is
the empty string, and parsing the empty string throws the ParseError
"invalid input"; no tree equal to the original can be recovered. -/
theorem C2_pretty_print_unimplemented :
    Expr.to_pretty_string (.funE "x" (.var "x")) = ""
    ∧ Expr.to_pretty_string (.call (.var "f") (.num 3)) = ""
    ∧ parse_str 100 "" = .error .invalidInput := by
  refine ⟨by rfl, by rfl, by rfl⟩

/-- C3: the parser is right-recursive at both levels — a sum of three
canonical operands parses as Add(a, Add(b, c)) and a product of three as
Mult(a, Mult(b, c)) — and multiplication binds tighter than addition,
witnessed by the two canonical reprints required by the spec. -/
theorem C3_associativity_precedence :
    (∀ (a b c : Expr) (fuel : Nat), CoreGrammatical a = true →
      CoreGrammatical b = true → CoreGrammatical c = true →
      4 * (esize a + esize b + esize c) + 4 ≤ fuel →
      parse fuel (printChars a ++ '+' :: (printChars b ++ '+' :: printChars c)) =
        .ok (.add a (.add b c)))
    ∧ (∀ (a b c : Expr) (fuel : Nat), CoreGrammatical a = true →
      CoreGrammatical b = true → CoreGrammatical c = true →
      4 * (esize a + esize b + esize c) + 4 ≤ fuel →
      parse fuel (printChars a ++ '*' :: (printChars b ++ '*' :: printChars c)) =
        .ok (.mult a (.mult b c)))
    ∧ parse_str 100 "1+2*3" = .ok (.add (.num 1) (.mult (.num 2) (.num 3)))
    ∧ Expr.to_string (.add (.num 1) (.mult (.num 2) (.num 3))) = "(1+(2*3))"
    ∧ parse_str 100 "(1+2)*3" = .ok (.mult (.add (.num 1) (.num 2)) (.num 3))
    ∧ Expr.to_string (.mult (.add (.num 1) (.num 2)) (.num 3)) = "((1+2)*3)" := by
  refine ⟨?_, ?_, by rfl,
    by simp only [Expr.to_string, printChars, intRepr]
       norm_num
       simp [natReprChars, digitChar],
    by rfl,
    by simp only [Expr.to_string, printChars, intRepr]
       norm_num
       simp [natReprChars, digitChar]⟩
  · intro a b c fuel ha hb hc hfuel
    have ha1 := esize_pos a
    have hb1 := esize_pos b
    have hc1 := esize_pos c
    obtain ⟨k, rfl⟩ : ∃ k, fuel = k + 4 := ⟨fuel - 4, by omega⟩
    have hma : parse_multicand (k + 2)
        (printChars a ++ '+' :: (printChars b ++ '+' :: printChars c)) =
        .ok (a, '+' :: (printChars b ++ '+' :: printChars c)) :=
      multicand_printChars a ha _ (k + 2)
        (restGuard_cons (by decide) (by decide)) (by omega)
    have haa := addend_keep hma (by decide) (by decide)
    have hmb : parse_multicand (k + 1)
        (printChars b ++ '+' :: printChars c) =
        .ok (b, '+' :: printChars c) :=
      multicand_printChars b hb _ (k + 1)
        (restGuard_cons (by decide) (by decide)) (by omega)
    have hab := addend_keep hmb (by decide) (by decide)
    have hxc : parse_expr (k + 2) (printChars c) = .ok (c, []) := by
      have h2 := @expr_printChars c [] (k + 2) hc (restGuard_nil c)
        (by rfl) (by rfl) (by omega)
      rwa [List.append_nil] at h2
    have hxbc : parse_expr (k + 3) (printChars b ++ '+' :: printChars c) =
        .ok (.add b c, []) :=
      expr_plus hab (skip_whitespace_not_space (by decide)) hxc
    have hx : parse_expr (k + 4)
        (printChars a ++ '+' :: (printChars b ++ '+' :: printChars c)) =
        .ok (.add a (.add b c), []) :=
      expr_plus haa (skip_whitespace_not_space (by decide)) hxbc
    simp only [parse, hx, skip_whitespace]
  · intro a b c fuel ha hb hc hfuel
    have ha1 := esize_pos a
    have hb1 := esize_pos b
    have hc1 := esize_pos c
    obtain ⟨k, rfl⟩ : ∃ k, fuel = k + 4 := ⟨fuel - 4, by omega⟩
    have hma : parse_multicand (k + 2)
        (printChars a ++ '*' :: (printChars b ++ '*' :: printChars c)) =
        .ok (a, '*' :: (printChars b ++ '*' :: printChars c)) :=
      multicand_printChars a ha _ (k + 2)
        (restGuard_cons (by decide) (by decide)) (by omega)
    have hmb : parse_multicand (k + 1)
        (printChars b ++ '*' :: printChars c) =
        .ok (b, '*' :: printChars c) :=
      multicand_printChars b hb _ (k + 1)
        (restGuard_cons (by decide) (by decide)) (by omega)
    have hmc : parse_multicand k (printChars c) = .ok (c, []) := by
      have h2 := multicand_printChars c hc [] k (restGuard_nil c) (by omega)
      rwa [List.append_nil] at h2
    have hac : parse_addend (k + 1) (printChars c) = .ok (c, []) := by
      have h2 := addend_of_multicand hmc (by rfl)
      exact h2
    have hab : parse_addend (k + 2) (printChars b ++ '*' :: printChars c) =
        .ok (.mult b c, []) := by
      refine addend_star hmb (skip_whitespace_not_space (by decide)) ?_
      rw [skip_whitespace_printChars_nil hc]
      exact hac
    have haa : parse_addend (k + 3)
        (printChars a ++ '*' :: (printChars b ++ '*' :: printChars c)) =
        .ok (.mult a (.mult b c), []) := by
      refine addend_star hma (skip_whitespace_not_space (by decide)) ?_
      rw [skip_whitespace_printChars hb]
      exact hab
    have hx : parse_expr (k + 4)
        (printChars a ++ '*' :: (printChars b ++ '*' :: printChars c)) =
        .ok (.mult a (.mult b c), []) := by
      have h2 := expr_of_addend haa (by rfl)
      exact h2
    simp only [parse, hx, skip_whitespace]

/-- Witness for C3_associativity_precedence: three numeric literals. -/
theorem C3_associativity_precedence_witness :
    parse 100 (printChars (.num 1) ++ '+' ::
        (printChars (.num 2) ++ '+' :: printChars (.num 3))) =
      .ok (.add (.num 1) (.add (.num 2) (.num 3))) :=
  C3_associativity_precedence.1 (.num 1) (.num 2) (.num 3) 100
    (by decide) (by decide) (by decide) (by decide)

/-- C4: the canonical closure-capture test string is rejected by the
parser in src/parse.cpp — parse_multicand sends the underscore of
underscore-fun to parse_let, whose consume_word of the keyword throws a
ParseError — while the evaluator of src/Expr.cpp does implement the
claimed closure semantics: interpreting the very tree that test denotes
yields NumVal(4), the closure's free variable resolving to the binding at
its creation, not the later rebinding. -/
theorem C4_closure_capture :
    parse_str 100 "_let x=1 _in _let f=_fun(y) x+y _in _let x=2 _in f 3" =
      .error .consumeMismatch
    ∧ interp 100
        (.letE "x" (.num 1)
          (.letE "f" (.funE "y" (.add (.var "x") (.var "y")))
            (.letE "x" (.num 2) (.call (.var "f") (.num 3))))) [] =
      .ok (.numVal 4) := by
  refine ⟨by rfl, by rfl⟩

/-- C5: LetExpr::interp evaluates the bound expression under the current
environment, then the body under that environment extended with the new
binding (so the binding is visible in the body only), and an inner binding
of the same name shadows an outer one: the spec's shadowing test parses
and evaluates to NumVal(2). -/
theorem C5_let_scoping :
    (∀ (fuel : Nat) (x : String) (r b : Expr) (env : Env),
      interp (fuel + 1) (.letE x r b) env =
        match interp fuel r env with
        | .ok v => interp fuel b ((x, v) :: env)
        | .error err => .error err)
    ∧ parse_str 100 "_let x=1 _in _let x=2 _in x" =
        .ok (.letE "x" (.num 1) (.letE "x" (.num 2) (.var "x")))
    ∧ interp 100 (.letE "x" (.num 1) (.letE "x" (.num 2) (.var "x"))) [] =
        .ok (.numVal 2) := by
  refine ⟨?_, by rfl, by rfl⟩
  intro fuel x r b env
  simp only [interp]
  cases interp fuel r env <;> rfl

/-- C6: IfExpr::interp evaluates the condition; exactly when the result is
BoolVal(true) it returns the then-branch's result, and for every other
result — BoolVal(false) or any non-boolean value — it returns the
else-branch's result, with no type error; a numeric condition selects the
else-branch. -/
theorem C6_if_permissive :
    (∀ (fuel : Nat) (c t f : Expr) (env : Env),
      interp (fuel + 1) (.ifE c t f) env =
        match interp fuel c env with
        | .ok (.boolVal true) => interp fuel t env
        | .ok _ => interp fuel f env
        | .error err => .error err)
    ∧ interp 100 (.ifE (.num 0) (.num 1) (.num 2)) [] = .ok (.numVal 2) := by
  refine ⟨?_, by rfl⟩
  intro fuel c t f env
  simp only [interp]
  cases interp fuel c env with
  | error err => rfl
  | ok v =>
    cases v with
    | numVal n => rfl
    | boolVal b => cases b <;> rfl
    | funVal p bd en => rfl

/-- C7: parse consumes one expression and optional trailing whitespace; if
any non-whitespace remains it throws "invalid input", on success it
returns exactly the parsed expression, and a failure of parse_expr
propagates as the parse error — never a partial result.  In particular
the two malformed inputs of the spec fail with a ParseError. -/
theorem C7_parse_contract :
    (∀ (fuel : Nat) (s : List Char) (e : Expr) (s1 : List Char),
      parse_expr fuel s = .ok (e, s1) → skip_whitespace s1 ≠ [] →
      parse fuel s = .error .invalidInput)
    ∧ (∀ (fuel : Nat) (s : List Char) (e : Expr) (s1 : List Char),
      parse_expr fuel s = .ok (e, s1) → skip_whitespace s1 = [] →
      parse fuel s = .ok e)
    ∧ (∀ (fuel : Nat) (s : List Char) (err : PErr),
      parse_expr fuel s = .error err → parse fuel s = .error err)
    ∧ parse_str 100 "1+" = .error .invalidInput
    ∧ parse_str 100 "(1+2" = .error .missingCloseParen := by
  refine ⟨?_, ?_, ?_, by rfl, by rfl⟩
  · intro fuel s e s1 h hne
    simp only [parse, h]
    cases hsw : skip_whitespace s1 with
    | nil => exact absurd hsw hne
    | cons c t => rfl
  · intro fuel s e s1 h hnil
    simp only [parse, h, hnil]
  · intro fuel s err h
    simp only [parse, h]

/-- Witness for C7_parse_contract: a number followed by a stray digit. -/
theorem C7_parse_contract_witness :
    parse 10 ('1' :: ' ' :: '2' :: []) = .error .invalidInput :=
  C7_parse_contract.1 10 ('1' :: ' ' :: '2' :: []) (.num 1) ('2' :: [])
    (by rfl) (by decide)

/-- C8: parsing a bare identifier yields a variable, and interpreting it
in the empty environment (the spec's reading of an absent environment
argument) fails with the unbound-variable error for that name. -/
theorem C8_unbound_variable :
    parse_str 100 "x" = .ok (.var "x")
    ∧ interp 100 (.var "x") [] = .error (.unboundVariable "x") := by
  refine ⟨by rfl, by rfl⟩

/-- C9 (counterexample): on the well-formed ten-digit literal 9999999999
the int accumulator of parse_num overflows: with the 32-bit
two's-complement model of int, the returned Num carries 1410065407
(9999999999 reduced modulo 2^32), not the decimal value of the digits, so
the unrestricted "for every well-formed literal" clause fails. -/
theorem C9_overflow_counterexample :
    parse_num_int32
        ('9' :: '9' :: '9' :: '9' :: '9' :: '9' :: '9' :: '9' :: '9' :: '9' :: []) =
      .ok (.num 1410065407, [])
    ∧ decValue
        ('9' :: '9' :: '9' :: '9' :: '9' :: '9' :: '9' :: '9' :: '9' :: '9' :: []) =
      9999999999
    ∧ (1410065407 : Int) ≠ 9999999999 := by
  refine ⟨by rfl, by rfl, by decide⟩

/-- C9 (amended): parse_num of a lone minus not followed by a digit
throws "not a num" (also at whole-parse level for the input consisting of
one minus sign); a well-formed literal of digits, optionally preceded by
a minus, whose decimal value is at most INT_MAX = 2147483647 — so the int
accumulation never leaves int range — parses to Num carrying the signed
decimal value of its digits, in the int-accurate wrapping model of
parse_num. -/
theorem C9_parse_num_contract :
    (∀ rest : List Char, headNot cIsDigit rest = true →
      parse_num_int32 ('-' :: rest) = .error .notANum)
    ∧ (∀ (ds rest : List Char), ds ≠ [] → ds.all cIsDigit = true →
        headNot cIsDigit rest = true → decValue ds ≤ 2147483647 →
        parse_num_int32 (ds ++ rest) = .ok (.num (decValue ds), rest))
    ∧ (∀ (ds rest : List Char), ds ≠ [] → ds.all cIsDigit = true →
        headNot cIsDigit rest = true → decValue ds ≤ 2147483647 →
        parse_num_int32 ('-' :: (ds ++ rest)) = .ok (.num (-decValue ds), rest))
    ∧ parse_str 100 "-" = .error .notANum := by
  refine ⟨?_, ?_, ?_, by rfl⟩
  · intro rest h
    cases rest with
    | nil => rfl
    | cons c cs =>
      simp only [headNot, Bool.not_eq_true'] at h
      simp [parse_num_int32, h]
  · intro ds rest h0 h1 h2 hbound
    cases ds with
    | nil => exact absurd rfl h0
    | cons d dt =>
      have hd : cIsDigit d = true := by
        have h3 := h1
        simp only [List.all_cons, Bool.and_eq_true] at h3
        exact h3.1
      have hloop := parseNumLoopInt_inrange (d :: dt) rest 0 (le_refl 0) h1 h2
        (by simpa using hbound)
      simp only [zero_mul, zero_add] at hloop
      simp only [List.cons_append] at hloop ⊢
      simp only [parse_num_int32]
      rw [if_neg (cIsDigit_ne_minus hd), hloop]
  · intro ds rest h0 h1 h2 hbound
    cases ds with
    | nil => exact absurd rfl h0
    | cons d dt =>
      have hd : cIsDigit d = true := by
        have h3 := h1
        simp only [List.all_cons, Bool.and_eq_true] at h3
        exact h3.1
      have hloop := parseNumLoopInt_inrange (d :: dt) rest 0 (le_refl 0) h1 h2
        (by simpa using hbound)
      simp only [zero_mul, zero_add] at hloop
      simp only [List.cons_append] at hloop ⊢
      simp only [parse_num_int32]
      rw [if_pos trivial, if_pos hd, hloop]
      rw [int32wrap_eq_self (by have := decValue_nonneg h1; omega)
        (by have := decValue_nonneg h1; omega)]

/-- Witness for C9_parse_num_contract: a minus before a letter fails, and
the in-range literals 42 and -7 read back to their decimal values. -/
theorem C9_parse_num_contract_witness :
    parse_num_int32 ('-' :: 'a' :: []) = .error .notANum
    ∧ parse_num_int32 (('4' :: '2' :: []) ++ []) =
        .ok (.num (decValue ('4' :: '2' :: [])), [])
    ∧ parse_num_int32 ('-' :: (('7' :: []) ++ [])) =
        .ok (.num (-decValue ('7' :: [])), []) :=
  ⟨C9_parse_num_contract.1 ('a' :: []) (by decide),
   C9_parse_num_contract.2.1 ('4' :: '2' :: []) [] (by decide) (by decide)
     (by decide) (by decide),
   C9_parse_num_contract.2.2.1 ('7' :: []) [] (by decide) (by decide)
     (by decide) (by decide)⟩

/-- C10: EqExpr::print emits its operands in swapped order: the printed
form of EqExpr(l, r) is an open parenthesis, the canonical print of r, the
double equals sign, the canonical print of l, and a close parenthesis. -/
theorem C10_eq_print_swapped (l r : Expr) :
    Expr.to_string (.eq l r) =
      "(" ++ Expr.to_string r ++ "==" ++ Expr.to_string l ++ ")" := by
  have hmk : ∀ a b : List Char, String.mk a ++ String.mk b = String.mk (a ++ b) :=
    fun a b => rfl
  have h1 : ("(" : String) = String.mk ['('] := rfl
  have h2 : ("==" : String) = String.mk ['=', '='] := rfl
  have h3 : (")" : String) = String.mk [')'] := rfl
  simp only [Expr.to_string, printChars]
  rw [h1, h2, h3, hmk, hmk, hmk, hmk]
  apply congrArg
  simp [List.append_assoc]

end MSD
